import Mathlib

/-!
Verification development for the pipspeak read demultiplexer.

The program streams paired FASTQ records, locates an ordered chain of
barcode segments (each an equal-length whitelist word plus an optional
wildcarded spacer) at the start of R1, extracts a UMI, and accumulates
run statistics.  Byte sequences are modelled as `List ℕ` (byte values),
machine counters as `ℕ`, the `f64` fraction as `Option ℚ` (where `none`
stands for a non-finite IEEE value such as the NaN produced by `0.0/0.0`),
and every Rust panic as an `Option`/`Except` failure.

The segment-matcher module (`barcodes.rs`) is not part of the sources at
hand; its operations are modelled from the specification (marked
`Modelled from the spec:` below) and calibrated against the repository's
own unit test in `parser.rs`, which fixes that `match_subsequence`
searches the subslice `seq[lo..hi]` and reports the match end relative
to `lo` (the driver advances `pos` by `pos + new_pos`).
All other definitions are translated directly from `main.rs`,
`parser.rs`, `config.rs` and `log.rs`.
-/

namespace Pipspeak

/-- ASCII code of base A. -/
def bA : ℕ := 65

/-- ASCII code of base C. -/
def bC : ℕ := 67

/-- ASCII code of base G. -/
def bG : ℕ := 71

/-- ASCII code of base T. -/
def bT : ℕ := 84

/-- ASCII code of the wildcard base N. -/
def bN : ℕ := 78

/-- Whether a byte is one of the four concrete DNA bases. -/
def isACGT (b : ℕ) : Bool := b == bA || b == bC || b == bG || b == bT

/-- Modelled from the spec: one spacer position matches a window byte when
the spacer byte is a literal equal to it, or the spacer byte is the
wildcard `N` and the window byte is a concrete base (the index table only
contains expansions over A,C,G,T). -/
def spacerSiteOk (s w : ℕ) : Bool := if s == bN then isACGT w else w == s

/-- Modelled from the spec: a window suffix matches the spacer pattern
position-wise. -/
def spacerMatches (spacer window : List ℕ) : Bool :=
  spacer.length == window.length &&
    (List.zip spacer window).all (fun p => spacerSiteOk p.1 p.2)

/-- Modelled from the spec: a window is a table key owned by word `w` when
it is `w` followed by a concrete expansion of the spacer. -/
def wordMatches (spacer w window : List ℕ) : Prop :=
  window.take w.length = w ∧ window.length = w.length + spacer.length ∧
    spacerMatches spacer (window.drop w.length) = true

instance (spacer w window : List ℕ) : Decidable (wordMatches spacer w window) := by
  unfold wordMatches; infer_instance

/-- Modelled from the spec: exact-mode table probe, returning the
segment-local index (whitelist order) of the first word owning the window. -/
def lookupWords (spacer window : List ℕ) : List (List ℕ) → Option ℕ
  | [] => none
  | w :: ws =>
    if wordMatches spacer w window then some 0
    else (lookupWords spacer window ws).map (fun j => j + 1)

/-- Modelled from the spec: the missing `barcodes.rs` segment matcher.  It
owns the whitelist of words (order-significant) and an optional spacer
(empty list when absent). -/
structure Barcodes where
  words : List (List ℕ)
  spacer : List ℕ
deriving DecidableEq

/-- Modelled from the spec: the effective segment length
`L_eff = |word| + |spacer|` exposed as `len()`. -/
def Barcodes.len (bc : Barcodes) : ℕ := (bc.words.headD []).length + bc.spacer.length

/-- Build invariant of a segment: the effective length is positive and all
whitelist words share one length. -/
def Barcodes.WF (bc : Barcodes) : Prop :=
  0 < bc.len ∧ ∀ w ∈ bc.words, w.length = (bc.words.headD []).length

instance (bc : Barcodes) : Decidable bc.WF := by
  unfold Barcodes.WF; infer_instance

/-- Modelled from the spec: `lookup(window)`, a single table probe.  The
one-mismatch neighbour expansion only enlarges the set of windows that
hit; the sliding-range and length facts proved below do not depend on it. -/
def Barcodes.lookup (bc : Barcodes) (window : List ℕ) : Option ℕ :=
  lookupWords bc.spacer window bc.words

/-- The table probe at start position `p` of sequence `s`. -/
def lookAt (bc : Barcodes) (s : List ℕ) (p : ℕ) : Option ℕ :=
  bc.lookup ((s.drop p).take bc.len)

/-- Linear scan of start positions `p, p+1, …` (`fuel` positions in all);
the first hit returns `(p + len, index)`. -/
def scanHits (bc : Barcodes) (s : List ℕ) : ℕ → ℕ → Option (ℕ × ℕ)
  | _, 0 => none
  | p, Nat.succ fuel =>
    match lookAt bc s p with
    | some j => some (p + bc.len, j)
    | none => scanHits bc s (p + 1) fuel

/-- Modelled from the spec: the missing `Barcodes::match_subsequence`.
It searches the subslice `seq[lo..hi]` and returns the match end
RELATIVE to `lo` together with the whitelist index; this relative-end
convention is fixed by the `parse_v3` unit test in `parser.rs` (the
driver accumulates `pos = pos + new_pos` and the test expects 41). -/
def Barcodes.match_subsequence (bc : Barcodes) (seq : List ℕ) (lo hi : ℕ) : Option (ℕ × ℕ) :=
  scanHits bc ((seq.drop lo).take (hi - lo)) 0 (((seq.drop lo).take (hi - lo)).length + 1)

/-- The specification's `match_in_range(seq, lo, hi)` as literally worded
(§4.1): slide the window start `p` over `lo, lo+1, …, hi` while
`p + L_eff ≤ |seq|`; the first hit returns the ABSOLUTE `(p + L_eff, index)`. -/
def matchInRange (bc : Barcodes) (seq : List ℕ) (lo hi : ℕ) : Option (ℕ × ℕ) :=
  scanHits bc seq lo (hi + 1 - lo)

/-- Modelled from the spec: `get_canonical(j, linkers)`; the canonical
bytes of whitelist entry `j`, with the spacer appended exactly when the
linkers flag is set. -/
def Barcodes.get_barcode (bc : Barcodes) (idx : ℕ) (linkers : Bool) : Option (List ℕ) :=
  (bc.words.get? idx).map (fun w => if linkers then w ++ bc.spacer else w)

/-- The construct configuration (`config.rs`): the ordered segment list,
the emit-linkers flag and the configured UMI length (0 = use CLI value). -/
structure Config where
  barcodes : List Barcodes
  linkers : Bool
  umiLen : ℕ
deriving DecidableEq

/-- `Config::barcode_count`. -/
def Config.barcodeCount (cfg : Config) : ℕ := cfg.barcodes.length

/-- `Config::match_subsequence` (config.rs lines 91-107): selects the
segment (a bad index panics, modelled `none`) and delegates to
`bc.match_subsequence(seq, pos, pos + bc.len() + off)`, or with
`pos + bc.len()` as the bound when `offset` is `None`. -/
def Config.match_subsequence (cfg : Config) (seq : List ℕ) (setIdx pos : ℕ)
    (offset : Option ℕ) : Option (ℕ × ℕ) :=
  match cfg.barcodes.get? setIdx with
  | none => none
  | some bc =>
    match offset with
    | some off => bc.match_subsequence seq pos (pos + bc.len + off)
    | none => bc.match_subsequence seq pos (pos + bc.len)

/-- `Config::get_barcode` (config.rs lines 116-118), argument use exactly
as in the source: the SEGMENT list is indexed with `bIndex` and the
whitelist of that segment with `position`. -/
def Config.get_barcode (cfg : Config) (bIndex position : ℕ) : Option (List ℕ) :=
  (cfg.barcodes.get? bIndex).bind (fun bc => bc.get_barcode position cfg.linkers)

/-- Helper for `Config::build_barcode`: concatenate the canonical bytes of
`indices`, the segment for each entry being its position in the list,
starting at segment `i`; a missing segment or whitelist entry is the
source's `.expect` panic, modelled `none`. -/
def buildFrom (cfg : Config) : ℕ → List ℕ → Option (List ℕ)
  | _, [] => some []
  | i, j :: rest =>
    match cfg.barcodes.get? i with
    | none => none
    | some bc =>
      match bc.get_barcode j cfg.linkers with
      | none => none
      | some w =>
        match buildFrom cfg (i + 1) rest with
        | none => none
        | some tail => some (w ++ tail)

/-- `Config::build_barcode` (config.rs lines 64-74). -/
def Config.build_barcode (cfg : Config) (indices : List ℕ) : Option (List ℕ) :=
  buildFrom cfg 0 indices

/-- `Config::from_file` + `Config::from_yaml` (config.rs lines 32-62):
the YAML `barcodes`/`spacers` documents are `std::collections::HashMap`s,
so the lists below are their VALUES IN ENUMERATION ORDER, an order the
hash map (not the document) chooses; `from_yaml` zips the two lists (the
`idx < spacers.len()` branch in the source is unreachable inside the zip)
and copies `parameters.umi_len` (default 0) without any bound check. -/
def configOfEnumeration (wordLists : List (List (List ℕ))) (spacers : List (List ℕ))
    (umiLenParam : Option ℕ) (linkers : Bool) : Config :=
  { barcodes := (wordLists.zip spacers).map (fun p => { words := p.1, spacer := p.2 }),
    linkers := linkers, umiLen := umiLenParam.getD 0 }

/-- main.rs line 186: the effective UMI length is the config's when
nonzero, else the CLI value. -/
def resolveUmiLen (cfg : Config) (cliUmiLen : ℕ) : ℕ :=
  if cfg.umiLen = 0 then cliUmiLen else cfg.umiLen

/-- `BaseComposition` (log.rs): per-base counters. -/
structure BaseComposition where
  a : ℕ
  c : ℕ
  g : ℕ
  t : ℕ
  n : ℕ
deriving DecidableEq

/-- `BaseComposition::add_base`; an unexpected byte is the source's
panic, modelled `none`. -/
def addBase (b0 : BaseComposition) (base : ℕ) : Option BaseComposition :=
  if base = bA then some { b0 with a := b0.a + 1 }
  else if base = bC then some { b0 with c := b0.c + 1 }
  else if base = bG then some { b0 with g := b0.g + 1 }
  else if base = bT then some { b0 with t := b0.t + 1 }
  else if base = bN then some { b0 with n := b0.n + 1 }
  else none

/-- `UMIBaseComposition::add`: bump slot `i` for UMI base `i`; running out
of slots is the source's out-of-range index panic, modelled `none`. -/
def umiBasesAdd : List BaseComposition → List ℕ → Option (List BaseComposition)
  | bs, [] => some bs
  | [], _ :: _ => none
  | b0 :: bs, u :: us =>
    match addBase b0 u with
    | none => none
    | some b1 =>
      match umiBasesAdd bs us with
      | none => none
      | some rest => some (b1 :: rest)

/-- The two-bit code of a base (A=00, C=01, G=10, T=11); any other byte is
the encoder's per-base panic, modelled `none`. -/
def baseCode (b : ℕ) : Option ℕ :=
  if b = bA then some 0
  else if b = bC then some 1
  else if b = bG then some 2
  else if b = bT then some 3
  else none

/-- The encoder's accumulator loop: `res <<= 2; res |= code` on a `u32`,
i.e. `res * 4 + code` reduced mod `2^32`. -/
def umiEncAux (res : ℕ) : List ℕ → Option ℕ
  | [] => some res
  | b :: rest =>
    match baseCode b with
    | some c => umiEncAux ((res * 4 + c) % 2 ^ 32) rest
    | none => none

/-- `UmiCounter::umi2u32` (log.rs lines 181-197): `none` is the explicit
length-over-16 panic or the invalid-base panic. -/
def umi2u32 (umi : List ℕ) : Option ℕ :=
  if 16 < umi.length then none else umiEncAux 0 umi

/-- Increment the count of key `k` in an association-list view of a hash
map (`*map.entry(k).or_insert(0) += 1`). -/
def bump : List (ℕ × ℕ) → ℕ → List (ℕ × ℕ)
  | [], k => [(k, 1)]
  | (k0, v) :: rest, k => if k = k0 then (k0, v + 1) :: rest else (k0, v) :: bump rest k

/-- `BarcodePartCounterMaps::add(index, position)`: bump `index` in the
map of `position`; a missing position is the source's index panic,
modelled `none` (unreachable: positions range over the segment count). -/
def counterMapsAdd (maps : List (List (ℕ × ℕ))) (index position : ℕ) :
    Option (List (List (ℕ × ℕ))) :=
  match maps.get? position with
  | none => none
  | some m => some (maps.set position (bump m index))

/-- The `construct_match` loop `for (i, idx) in indices.enumerate`:
`counter_maps.add(idx, i)` starting from position `i`. -/
def counterMapsAddAll : List (List (ℕ × ℕ)) → ℕ → List ℕ → Option (List (List (ℕ × ℕ)))
  | maps, _, [] => some maps
  | maps, i, idx :: rest =>
    match counterMapsAdd maps idx i with
    | none => none
    | some maps1 => counterMapsAddAll maps1 (i + 1) rest

/-- `UmiCounter::add`: encode the UMI (possibly panicking) and bump its
count. -/
def umiCounterAdd (m : List (ℕ × ℕ)) (umi : List ℕ) : Option (List (ℕ × ℕ)) :=
  (umi2u32 umi).map (fun e => bump m e)

/-- `BarcodeUmiCounter::add(indices, umi)`: the per-construct UMI
histogram keyed by the full index tuple. -/
def barcodeUmiAdd : List (List ℕ × List (ℕ × ℕ)) → List ℕ → List ℕ →
    Option (List (List ℕ × List (ℕ × ℕ)))
  | [], idxs, umi => (umiCounterAdd [] umi).map (fun m => [(idxs, m)])
  | (k, m) :: rest, idxs, umi =>
    if k = idxs then (umiCounterAdd m umi).map (fun m1 => (k, m1) :: rest)
    else (barcodeUmiAdd rest idxs umi).map (fun r => (k, m) :: r)

/-- `Statistics` (log.rs lines 14-30).  `fractionPassing : Option ℚ`
models the `f64` field, `none` standing for a non-finite value (the NaN
of `0.0/0.0`); the hash containers are modelled by their contents. -/
structure Statistics where
  totalReads : ℕ
  passingReads : ℕ
  fractionPassing : Option ℚ
  whitelistSize : ℕ
  numFiltered : List ℕ
  numFilteredUmi : ℕ
  whitelist : Finset (List ℕ)
  counterMaps : List (List (ℕ × ℕ))
  barcodeUmi : List (List ℕ × List (ℕ × ℕ))
  umiBases : List BaseComposition
deriving DecidableEq

/-- `Statistics::new(barcode_count)`: zeroed counters, one filter counter
and one position map per segment, sixteen UMI-composition slots. -/
def Statistics.new (barcodeCount : ℕ) : Statistics :=
  { totalReads := 0, passingReads := 0, fractionPassing := some 0, whitelistSize := 0,
    numFiltered := List.replicate barcodeCount 0, numFilteredUmi := 0,
    whitelist := ∅, counterMaps := List.replicate barcodeCount [],
    barcodeUmi := [], umiBases := List.replicate 16 ⟨0, 0, 0, 0, 0⟩ }

/-- `num_filtered[i] += 1` (`i` is always below the list length in
reachable states, so `List.set` is exact there). -/
def bumpAt (l : List ℕ) (i : ℕ) : List ℕ := l.set i (l.getD i 0 + 1)

/-- `Statistics::calculate_metrics` (log.rs lines 41-44):
`fraction_passing = passing_reads as f64 / total_reads as f64` with NO
clamping of the divisor — a zero total performs `0.0/0.0` (NaN, modelled
`none`) — and `whitelist_size = whitelist.len()`. -/
def calculate_metrics (st : Statistics) : Statistics :=
  { st with
    fractionPassing :=
      if st.totalReads = 0 then none
      else some ((st.passingReads : ℚ) / (st.totalReads : ℚ)),
    whitelistSize := st.whitelist.card }

/-- A FASTQ record: id line, sequence, quality (same length as the
sequence in well-formed FASTQ). -/
structure Record where
  id : List ℕ
  seq : List ℕ
  qual : List ℕ
deriving DecidableEq

/-- The per-segment call of the driver's chain (parser.rs line 23):
`Some(offset)` for the first segment, the hardcoded `Some(2)` default
tolerance afterwards. -/
def chainStep (cfg : Config) (seq : List ℕ) (offset : ℕ) (i pos : ℕ) : Option (ℕ × ℕ) :=
  cfg.match_subsequence seq i pos (if i = 0 then some offset else some 2)

/-- The chain loop of `match_records` (parser.rs lines 22-30): on a hit
advance `pos` by the returned (relative) end and record the index; on a
miss report the failing segment. -/
def matchChainAux (cfg : Config) (seq : List ℕ) (offset : ℕ) :
    ℕ → ℕ → ℕ → Except ℕ (ℕ × List ℕ)
  | 0, _, pos => Except.ok (pos, [])
  | Nat.succ rem, i, pos =>
    match chainStep cfg seq offset i pos with
    | some (newPos, bcIdx) =>
      (matchChainAux cfg seq offset rem (i + 1) (pos + newPos)).map
        (fun pr => (pr.1, bcIdx :: pr.2))
    | none => Except.error i

/-- `match_records` (parser.rs lines 17-34): note that `passing_reads` is
incremented as soon as every BARCODE segment matched, before any UMI
check; a miss at segment `i` bumps `num_filtered[i]` and aborts. -/
def match_records (cfg : Config) (offset : ℕ) (seq : List ℕ) (st : Statistics) :
    Statistics × Option (ℕ × List ℕ) :=
  match matchChainAux cfg seq offset cfg.barcodeCount 0 0 with
  | Except.ok (pos, idxs) =>
    ({ st with passingReads := st.passingReads + 1 }, some (pos, idxs))
  | Except.error i =>
    ({ st with numFiltered := bumpAt st.numFiltered i }, none)

/-- `match_umi` (parser.rs lines 36-50): reject when the read is too
short for the UMI window or the UMI contains `N`, bumping
`num_filtered_umi`; otherwise return the position past the UMI and the
UMI bytes. -/
def match_umi (seq : List ℕ) (pos umiLen : ℕ) (st : Statistics) :
    Statistics × Option (ℕ × List ℕ) :=
  if seq.length < pos + umiLen then
    ({ st with numFilteredUmi := st.numFilteredUmi + 1 }, none)
  else
    if ((seq.drop pos).take umiLen).contains bN then
      ({ st with numFilteredUmi := st.numFilteredUmi + 1 }, none)
    else (st, some (pos + umiLen, (seq.drop pos).take umiLen))

/-- `construct_match` (parser.rs lines 52-63): build the canonical
barcode (`.expect` panic modelled `none`), update the three histogram
structures (each with its own panic sites), append the UMI, and slice
the quality window `qual[pos - construct.len() .. pos]` — a Rust panic
(underflow or out-of-range) when `construct.len() > pos` or
`pos > qual.len()`, modelled `none`. -/
def construct_match (cfg : Config) (qual : List ℕ) (pos : ℕ) (idxs umi : List ℕ)
    (st : Statistics) : Option (List ℕ × List ℕ × Statistics) :=
  match cfg.build_barcode idxs with
  | none => none
  | some bcSeq =>
    match counterMapsAddAll st.counterMaps 0 idxs with
    | none => none
    | some cm =>
      match barcodeUmiAdd st.barcodeUmi idxs umi with
      | none => none
      | some bu =>
        match umiBasesAdd st.umiBases umi with
        | none => none
        | some ub =>
          if (bcSeq ++ umi).length ≤ pos ∧ pos ≤ qual.length then
            some (bcSeq ++ umi,
              (qual.drop (pos - (bcSeq ++ umi).length)).take ((bcSeq ++ umi).length),
              { st with counterMaps := cm, barcodeUmi := bu, umiBases := ub })
          else none

/-- One iteration of the `parse_records` loop (parser.rs lines 89-107):
count the pair, run the chain, the UMI check, then construct assembly;
a passing read is inserted into the whitelist set and emitted as the
rewritten R1 record plus the untouched R2 record. -/
def processPair (cfg : Config) (offset umiLen : ℕ) (st : Statistics)
    (rec1 rec2 : Record) : Option (Statistics × List (Record × Record)) :=
  let st0 := { st with totalReads := st.totalReads + 1 }
  match match_records cfg offset rec1.seq st0 with
  | (st1, none) => some (st1, [])
  | (st1, some (pos, idxs)) =>
    match match_umi rec1.seq pos umiLen st1 with
    | (st2, none) => some (st2, [])
    | (st2, some (pos2, umi)) =>
      match construct_match cfg rec1.qual pos2 idxs umi st2 with
      | none => none
      | some (cseq, cqual, st3) =>
        some ({ st3 with whitelist := insert cseq st3.whitelist },
          [({ id := rec1.id, seq := cseq, qual := cqual }, rec2)])

/-- Fold of `processPair` over the zipped record pairs. -/
def runPairs (cfg : Config) (offset umiLen : ℕ) :
    List (Record × Record) → Statistics → Option (Statistics × List (Record × Record))
  | [], st => some (st, [])
  | (r1, r2) :: rest, st =>
    match processPair cfg offset umiLen st r1 r2 with
    | none => none
    | some (st1, out) =>
      match runPairs cfg offset umiLen rest st1 with
      | none => none
      | some (stF, outs) => some (stF, out ++ outs)

/-- `parse_records` (parser.rs lines 74-117): stream every pair through
the pipeline starting from fresh statistics, then `calculate_metrics`;
`none` is a mid-stream panic aborting the run. -/
def parse_records (cfg : Config) (offset umiLen : ℕ) (pairs : List (Record × Record)) :
    Option (Statistics × List (Record × Record)) :=
  match runPairs cfg offset umiLen pairs (Statistics.new cfg.barcodeCount) with
  | none => none
  | some (st, outs) => some (calculate_metrics st, outs)

/-- The bytes of the literal string `unknown`. -/
def unknownBytes : List ℕ := [117, 110, 107, 110, 111, 119, 110]

/-- The barcode column of one row of `counter_maps_to_file` (log.rs lines
56-71): `config.get_barcode(k, position)` rendered as bytes, or the
literal `unknown` when the lookup fails (DNA bytes are always valid
UTF-8, so the string conversion never fails on them). -/
def rowBarcodeBytes (cfg : Config) (k position : ℕ) : List ℕ :=
  match cfg.get_barcode k position with
  | some bs => bs
  | none => unknownBytes

/-- All rows `(position, barcode-bytes, count)` of the per-position
counts sidecar, enumerating the maps in position order. -/
def counterMapsRows (cfg : Config) (maps : List (List (ℕ × ℕ))) :
    List (ℕ × List ℕ × ℕ) :=
  (maps.enum).flatMap (fun pm => pm.2.map (fun kv => (pm.1, rowBarcodeBytes cfg kv.1 pm.1, kv.2)))

/-- The barcode column as claim C5 states it: the canonical bytes of
whitelist entry `k` OF SEGMENT `position` (reverse lookup index-to-word
in that segment). -/
def claimedRowBarcode (cfg : Config) (k position : ℕ) : Option (List ℕ) :=
  (cfg.barcodes.get? position).bind (fun bc => bc.get_barcode k cfg.linkers)

/-- `setThreadsGo`: the non-recursive branches of `set_threads` for a
positive request. -/
def setThreadsGo (n : ℕ) : ℕ × ℕ :=
  if n = 1 then (1, 1)
  else if n % 2 = 0 then (n / 2, n / 2) else (n / 2, n / 2 + 1)

/-- `set_threads` (main.rs lines 147-159): 0 means all cores (the source
recurses on `num_cpus::get()`, which is at least 1 on any machine). -/
def set_threads (cores : ℕ) (numThreads : ℕ) : ℕ × ℕ :=
  if numThreads = 0 then setThreadsGo cores else setThreadsGo numThreads

/-! ## Lemmas about the segment matcher -/

theorem lookupWords_eq_some {spacer window : List ℕ} :
    ∀ {ws : List (List ℕ)} {j : ℕ}, lookupWords spacer window ws = some j →
      ∃ w, ws.get? j = some w ∧ wordMatches spacer w window := by
  intro ws
  induction ws with
  | nil => intro j h; simp [lookupWords] at h
  | cons w ws ih =>
    intro j h
    by_cases hm : wordMatches spacer w window
    · rw [lookupWords, if_pos hm] at h
      cases h
      exact ⟨w, rfl, hm⟩
    · rw [lookupWords, if_neg hm] at h
      obtain ⟨j0, hj0, hj⟩ := Option.map_eq_some'.mp h
      obtain ⟨w0, hw0, hwm⟩ := ih hj0
      exact ⟨w0, by simpa [← hj] using hw0, hwm⟩

theorem lookAt_window_length {bc : Barcodes} (hwf : bc.WF) {s : List ℕ} {p j : ℕ}
    (h : lookAt bc s p = some j) : ((s.drop p).take bc.len).length = bc.len := by
  obtain ⟨w, hw, hm⟩ := lookupWords_eq_some (by simpa [lookAt, Barcodes.lookup] using h)
  have hmem : w ∈ bc.words := List.get?_mem hw
  have hwl := hwf.2 w hmem
  rw [hm.2.1, hwl]
  rfl

theorem lookAt_of_short {bc : Barcodes} (hwf : bc.WF) {s : List ℕ} {p : ℕ}
    (h : ((s.drop p).take bc.len).length < bc.len) : lookAt bc s p = none := by
  cases hl : lookAt bc s p with
  | none => rfl
  | some j => exact absurd (lookAt_window_length hwf hl) (by omega)

theorem scanHits_eq_some {bc : Barcodes} {s : List ℕ} :
    ∀ {fuel p r j : ℕ}, scanHits bc s p fuel = some (r, j) →
      ∃ p0, p ≤ p0 ∧ r = p0 + bc.len ∧ lookAt bc s p0 = some j := by
  intro fuel
  induction fuel with
  | zero => intro p r j h; simp [scanHits] at h
  | succ fuel ih =>
    intro p r j h
    rw [scanHits] at h
    cases hl : lookAt bc s p with
    | some j0 =>
      rw [hl] at h
      cases h
      exact ⟨p, le_refl p, rfl, hl⟩
    | none =>
      rw [hl] at h
      obtain ⟨p0, hp, hr, h2⟩ := ih h
      exact ⟨p0, by omega, hr, h2⟩

theorem scanHits_of_misses {bc : Barcodes} {s : List ℕ} :
    ∀ (fuel p : ℕ), (∀ q, p ≤ q → q < p + fuel → lookAt bc s q = none) →
      scanHits bc s p fuel = none := by
  intro fuel
  induction fuel with
  | zero => intro p _; rfl
  | succ fuel ih =>
    intro p hmiss
    rw [scanHits, hmiss p (le_refl p) (by omega)]
    exact ih (p + 1) (fun q hq1 hq2 => hmiss q (by omega) (by omega))

theorem scanHits_fuel_ext {bc : Barcodes} {s : List ℕ} :
    ∀ (f1 : ℕ) {f2 p : ℕ}, f1 ≤ f2 →
      (∀ q, p + f1 ≤ q → q < p + f2 → lookAt bc s q = none) →
      scanHits bc s p f2 = scanHits bc s p f1 := by
  intro f1
  induction f1 with
  | zero =>
    intro f2 p _ hmiss
    exact scanHits_of_misses f2 p (fun q hq1 hq2 => hmiss q (by omega) hq2)
  | succ f1 ih =>
    intro f2 p hle hmiss
    obtain ⟨f2', rfl⟩ : ∃ f2', f2 = f2' + 1 := ⟨f2 - 1, by omega⟩
    rw [scanHits, scanHits]
    cases hl : lookAt bc s p with
    | some j => rfl
    | none => exact ih (by omega) (fun q hq1 hq2 => hmiss q (by omega) (by omega))

theorem slice_window_eq (seq : List ℕ) (lo off L p : ℕ) (hp : p ≤ off) :
    (((seq.drop lo).take (L + off)).drop p).take L = (seq.drop (lo + p)).take L := by
  rw [List.drop_take, List.drop_drop, List.take_take, min_eq_left (by omega)]

theorem scanHits_shift (bc : Barcodes) (seq : List ℕ) (lo off : ℕ) :
    ∀ (fuel : ℕ) {p : ℕ}, p + fuel ≤ off + 1 →
      (scanHits bc ((seq.drop lo).take (bc.len + off)) p fuel).map
          (fun rj => (lo + rj.1, rj.2))
        = scanHits bc seq (lo + p) fuel := by
  intro fuel
  induction fuel with
  | zero => intro p _; rfl
  | succ fuel ih =>
    intro p hfuel
    have hp : p ≤ off := by omega
    have hwin : lookAt bc ((seq.drop lo).take (bc.len + off)) p = lookAt bc seq (lo + p) := by
      unfold lookAt
      rw [slice_window_eq seq lo off bc.len p hp]
    rw [scanHits, scanHits, hwin]
    cases hl : lookAt bc seq (lo + p) with
    | some j => simp [Nat.add_assoc]
    | none =>
      have := ih (p := p + 1) (by omega)
      simpa [Nat.add_assoc] using this

/-- Key refinement fact: the source call
`bc.match_subsequence(seq, lo, lo + bc.len() + off)` searches exactly the
window START positions `lo..lo+off` of `seq` — the specification's
`match_in_range(seq, lo, lo+off)` — and reports the same hit with the end
stated relative to `lo`. -/
theorem matchSub_eq_matchInRange (bc : Barcodes) (hwf : bc.WF) (seq : List ℕ) (lo off : ℕ) :
    (bc.match_subsequence seq lo (lo + bc.len + off)).map (fun rj => (lo + rj.1, rj.2))
      = matchInRange bc seq lo (lo + off) := by
  have h1 : lo + bc.len + off - lo = bc.len + off := by omega
  have h2 : lo + off + 1 - lo = off + 1 := by omega
  rw [Barcodes.match_subsequence, matchInRange, h1, h2]
  have hlenS : ((seq.drop lo).take (bc.len + off)).length ≤ bc.len + off :=
    List.length_take_le _ _
  have hnorm : scanHits bc ((seq.drop lo).take (bc.len + off)) 0
      (((seq.drop lo).take (bc.len + off)).length + 1)
      = scanHits bc ((seq.drop lo).take (bc.len + off)) 0 (off + 1) := by
    have hshort : ∀ q, off < q →
        lookAt bc ((seq.drop lo).take (bc.len + off)) q = none := by
      intro q hq
      apply lookAt_of_short hwf
      rw [List.length_take, List.length_drop]
      have h0 := hwf.1
      omega
    rcases Nat.le_total (((seq.drop lo).take (bc.len + off)).length + 1) (off + 1) with hle | hle
    · have hshort2 : ∀ q, ((seq.drop lo).take (bc.len + off)).length < q →
          lookAt bc ((seq.drop lo).take (bc.len + off)) q = none := by
        intro q hq
        apply lookAt_of_short hwf
        rw [List.length_take, List.length_drop]
        have h0 := hwf.1
        omega
      exact (scanHits_fuel_ext _ hle (fun q hq1 hq2 => hshort2 q (by omega))).symm
    · exact scanHits_fuel_ext _ hle (fun q hq1 hq2 => hshort q (by omega))
  rw [hnorm]
  have := scanHits_shift bc seq lo off (off + 1) (p := 0) (by omega)
  simpa using this

/-! ## Lemmas about the match chain and construct assembly -/

theorem match_subsequence_hit {bc : Barcodes} {seq : List ℕ} {lo hi r j : ℕ}
    (h : bc.match_subsequence seq lo hi = some (r, j)) :
    ∃ w, bc.words.get? j = some w ∧ w.length + bc.spacer.length ≤ bc.len ∧ bc.len ≤ r := by
  unfold Barcodes.match_subsequence at h
  obtain ⟨p0, _, hr, hlook⟩ := scanHits_eq_some h
  obtain ⟨w, hw, hm⟩ := lookupWords_eq_some (by simpa [lookAt, Barcodes.lookup] using hlook)
  refine ⟨w, hw, ?_, by omega⟩
  have hlen : ((((seq.drop lo).take (hi - lo)).drop p0).take bc.len).length ≤ bc.len :=
    List.length_take_le _ _
  have hwin := hm.2.1
  omega

theorem config_match_hit {cfg : Config} {seq : List ℕ} {i pos r j : ℕ} {off : Option ℕ}
    (h : cfg.match_subsequence seq i pos off = some (r, j)) :
    ∃ bc, cfg.barcodes.get? i = some bc ∧
      ∃ w, bc.words.get? j = some w ∧ w.length + bc.spacer.length ≤ bc.len ∧ bc.len ≤ r := by
  unfold Config.match_subsequence at h
  cases hbc : cfg.barcodes.get? i with
  | none => rw [hbc] at h; exact absurd h (by simp)
  | some bc =>
    rw [hbc] at h
    cases off with
    | some o => exact ⟨bc, rfl, match_subsequence_hit h⟩
    | none => exact ⟨bc, rfl, match_subsequence_hit h⟩

theorem chain_build (cfg : Config) (seq : List ℕ) (offset : ℕ) :
    ∀ (rem : ℕ) {i pos pos' : ℕ} {idxs : List ℕ},
      matchChainAux cfg seq offset rem i pos = Except.ok (pos', idxs) →
      ∃ l, buildFrom cfg i idxs = some l ∧ l.length + pos ≤ pos' := by
  intro rem
  induction rem with
  | zero =>
    intro i pos pos' idxs h
    rw [matchChainAux] at h
    cases h
    exact ⟨[], rfl, by simp⟩
  | succ rem ih =>
    intro i pos pos' idxs h
    rw [matchChainAux] at h
    cases hstep : chainStep cfg seq offset i pos with
    | none => rw [hstep] at h; simp at h
    | some rj =>
      obtain ⟨r, j⟩ := rj
      rw [hstep] at h
      dsimp only at h
      cases hrec : matchChainAux cfg seq offset rem (i + 1) (pos + r) with
      | error e => rw [hrec] at h; exact absurd h (by simp [Except.map])
      | ok pr =>
        obtain ⟨pos1, idxs1⟩ := pr
        rw [hrec] at h
        simp only [Except.map] at h
        cases h
        unfold chainStep at hstep
        obtain ⟨bc, hbc, w, hw, hwlen, hlenr⟩ := config_match_hit hstep
        obtain ⟨l1, hbuild1, hlen1⟩ := ih hrec
        have hgb : bc.get_barcode j cfg.linkers
            = some (if cfg.linkers then w ++ bc.spacer else w) := by
          unfold Barcodes.get_barcode
          rw [hw]
          rfl
        refine ⟨(if cfg.linkers then w ++ bc.spacer else w) ++ l1, ?_, ?_⟩
        · rw [buildFrom, hbc]
          dsimp only
          rw [hgb]
          dsimp only
          rw [hbuild1]
        · have hcan : (if cfg.linkers then w ++ bc.spacer else w).length ≤ bc.len := by
            cases cfg.linkers with
            | true => simpa using hwlen
            | false => simp; omega
          rw [List.length_append]
          omega

theorem match_records_ok {cfg : Config} {offset : ℕ} {seq : List ℕ}
    {st st1 : Statistics} {pos : ℕ} {idxs : List ℕ}
    (h : match_records cfg offset seq st = (st1, some (pos, idxs))) :
    matchChainAux cfg seq offset cfg.barcodeCount 0 0 = Except.ok (pos, idxs) := by
  unfold match_records at h
  cases hc : matchChainAux cfg seq offset cfg.barcodeCount 0 0 with
  | ok pr =>
    obtain ⟨p0, l0⟩ := pr
    rw [hc] at h
    simp only [Prod.mk.injEq, Option.some.injEq] at h
    obtain ⟨-, h2, h3⟩ := h
    rw [h2, h3]
  | error e => rw [hc] at h; exact absurd h (by simp)

theorem match_umi_some {seq : List ℕ} {pos umiLen : ℕ} {st st2 : Statistics}
    {pos2 : ℕ} {umi : List ℕ}
    (h : match_umi seq pos umiLen st = (st2, some (pos2, umi))) :
    pos2 = pos + umiLen ∧ umi.length = umiLen ∧ pos + umiLen ≤ seq.length := by
  unfold match_umi at h
  by_cases hshort : seq.length < pos + umiLen
  · rw [if_pos hshort] at h
    exact absurd h (by simp)
  · rw [if_neg hshort] at h
    by_cases hn : ((seq.drop pos).take umiLen).contains bN
    · rw [if_pos hn] at h
      exact absurd h (by simp)
    · rw [if_neg hn] at h
      simp only [Prod.mk.injEq, Option.some.injEq] at h
      obtain ⟨-, h2, h3⟩ := h
      refine ⟨h2.symm, ?_, by omega⟩
      rw [← h3, List.length_take, List.length_drop]
      omega

/-! ## Lemmas about the UMI encoder -/

/-- The two-bit code with the (unreachable for valid bases) default 0. -/
def codeD (b : ℕ) : ℕ := (baseCode b).getD 0

/-- The pure (panic-free, overflow-free) value of the encoder on a valid
UMI: the base-4 number with the first base as the most significant digit. -/
def umiEnc (umi : List ℕ) : ℕ := umi.foldl (fun r b => r * 4 + codeD b) 0

/-- The decoder of a two-bit code back to the base byte. -/
def baseOfCode (c : ℕ) : ℕ :=
  if c = 0 then bA else if c = 1 then bC else if c = 2 then bG else bT

/-- Decode a packed UMI of known length `u`: the last base is the lowest
two bits. -/
def umiDecode : ℕ → ℕ → List ℕ
  | 0, _ => []
  | Nat.succ u, n => umiDecode u (n / 4) ++ [baseOfCode (n % 4)]

theorem codeD_lt (b : ℕ) : codeD b < 4 := by
  unfold codeD baseCode
  split_ifs <;> simp

theorem umiEnc_foldl_mono : ∀ (l : List ℕ) (r : ℕ),
    r ≤ l.foldl (fun x b => x * 4 + codeD b) r := by
  intro l
  induction l with
  | nil => intro r; simp
  | cons b rest ih =>
    intro r
    calc r ≤ r * 4 + codeD b := by omega
    _ ≤ _ := ih (r * 4 + codeD b)

theorem umiEnc_foldl_lt : ∀ (l : List ℕ) (r : ℕ),
    l.foldl (fun x b => x * 4 + codeD b) r < (r + 1) * 4 ^ l.length := by
  intro l
  induction l with
  | nil => intro r; simp
  | cons b rest ih =>
    intro r
    have h1 := ih (r * 4 + codeD b)
    have hc := codeD_lt b
    calc (b :: rest).foldl (fun x b => x * 4 + codeD b) r
        = rest.foldl (fun x b => x * 4 + codeD b) (r * 4 + codeD b) := rfl
    _ < (r * 4 + codeD b + 1) * 4 ^ rest.length := h1
    _ ≤ ((r + 1) * 4) * 4 ^ rest.length := by
        apply Nat.mul_le_mul_right
        omega
    _ = (r + 1) * 4 ^ (rest.length + 1) := by ring
    _ = (r + 1) * 4 ^ (b :: rest).length := by rw [List.length_cons]

theorem isACGT_baseCode {b : ℕ} (h : isACGT b = true) : ∃ c, baseCode b = some c := by
  simp only [isACGT, Bool.or_eq_true, beq_iff_eq] at h
  rcases h with ((rfl | rfl) | rfl) | rfl
  · exact ⟨0, rfl⟩
  · exact ⟨1, rfl⟩
  · exact ⟨2, rfl⟩
  · exact ⟨3, rfl⟩

theorem baseOfCode_codeD {b : ℕ} (h : isACGT b = true) : baseOfCode (codeD b) = b := by
  simp only [isACGT, Bool.or_eq_true, beq_iff_eq] at h
  rcases h with ((rfl | rfl) | rfl) | rfl <;> decide

theorem umiEncAux_eq : ∀ (l : List ℕ) (r : ℕ), (∀ b ∈ l, isACGT b = true) →
    l.foldl (fun x b => x * 4 + codeD b) r < 2 ^ 32 →
    umiEncAux r l = some (l.foldl (fun x b => x * 4 + codeD b) r) := by
  intro l
  induction l with
  | nil => intro r _ _; rfl
  | cons b rest ih =>
    intro r hv hlt
    obtain ⟨c, hc⟩ := isACGT_baseCode (hv b (by simp))
    have hcd : codeD b = c := by rw [codeD, hc]; rfl
    have hstep : rest.foldl (fun x b => x * 4 + codeD b) (r * 4 + codeD b)
        = (b :: rest).foldl (fun x b => x * 4 + codeD b) r := rfl
    have hbound : r * 4 + c < 2 ^ 32 := by
      have := umiEnc_foldl_mono rest (r * 4 + codeD b)
      rw [hstep] at this
      omega
    rw [umiEncAux, hc]
    dsimp only
    have hmod : (r * 4 + c) % 2 ^ 32 = r * 4 + c := Nat.mod_eq_of_lt hbound
    rw [hmod, ← hcd]
    exact ih (r * 4 + codeD b) (fun x hx => hv x (by simp [hx])) (by rw [hstep]; exact hlt)

theorem umiEnc_lt {umi : List ℕ} (h : umi.length ≤ 16) : umiEnc umi < 2 ^ 32 := by
  have h1 := umiEnc_foldl_lt umi 0
  have h2 : (4 : ℕ) ^ umi.length ≤ 4 ^ 16 := Nat.pow_le_pow_right (by norm_num) h
  have h3 : (4 : ℕ) ^ 16 = 2 ^ 32 := by norm_num
  unfold umiEnc
  omega

theorem umi2u32_eq_umiEnc {umi : List ℕ} (hv : ∀ b ∈ umi, isACGT b = true)
    (h : umi.length ≤ 16) : umi2u32 umi = some (umiEnc umi) := by
  rw [umi2u32, if_neg (by omega)]
  exact umiEncAux_eq umi 0 hv (umiEnc_lt h)

theorem umiDecode_umiEnc : ∀ (l : List ℕ), (∀ b ∈ l, isACGT b = true) →
    umiDecode l.length (umiEnc l) = l := by
  intro l
  induction l using List.reverseRecOn with
  | nil => intro _; rfl
  | append_singleton l b ih =>
    intro hv
    have hsn : umiEnc (l ++ [b]) = umiEnc l * 4 + codeD b := by
      unfold umiEnc
      rw [List.foldl_append]
      rfl
    have hlen : (l ++ [b]).length = l.length + 1 := by simp
    have hc := codeD_lt b
    have hdiv : (umiEnc l * 4 + codeD b) / 4 = umiEnc l := by omega
    have hmod : (umiEnc l * 4 + codeD b) % 4 = codeD b := by omega
    rw [hsn, hlen, umiDecode, hdiv, hmod,
      ih (fun x hx => hv x (by simp [hx])),
      baseOfCode_codeD (hv b (by simp))]

/-! ## Concrete fixtures -/

/-- Fixture: a segment whose whitelist is the single word `A`. -/
def segA : Barcodes := { words := [[bA]], spacer := [] }

/-- Fixture: a segment whose whitelist is the single word `C`. -/
def segC : Barcodes := { words := [[bC]], spacer := [] }

/-- Fixture: a segment whose whitelist is the single word `G`. -/
def segG : Barcodes := { words := [[bG]], spacer := [] }

/-- Fixture: a segment whose whitelist is the two words `A`, `C`. -/
def segAC : Barcodes := { words := [[bA], [bC]], spacer := [] }

/-- Fixture: a segment whose whitelist is the single word `AA`. -/
def segAA : Barcodes := { words := [[bA, bA]], spacer := [] }

/-- Fixture: a one-segment configuration (whitelist `A`). -/
def cfg1 : Config := { barcodes := [segA], linkers := false, umiLen := 0 }

/-- Fixture: a two-segment configuration (`A` then `C`). -/
def cfg2 : Config := { barcodes := [segA, segC], linkers := false, umiLen := 0 }

/-- Fixture: the two-segment configuration for claim C5 (`A`,`C` then `G`). -/
def cfgC5 : Config := { barcodes := [segAC, segG], linkers := false, umiLen := 0 }

/-- Fixture: a one-segment configuration with the word `AA`. -/
def cfgAA : Config := { barcodes := [segAA], linkers := false, umiLen := 0 }

/-- Fixture: the configuration whose YAML parameters set `umi_len: 17`. -/
def cfg17 : Config := configOfEnumeration [[[bA]]] [[]] (some 17) false

/-- Fixture: an R1 read `AN` (barcode hit, UMI is the sole base `N`). -/
def recAN : Record := { id := [105], seq := [bA, bN], qual := [49, 49] }

/-- Fixture: an R1 read `AC` (barcode hit, clean one-base UMI `C`). -/
def recAC : Record := { id := [], seq := [bA, bC], qual := [49, 49] }

/-- Fixture: an 18-base all-`A` read (1 barcode base + 17 UMI bases). -/
def rec18 : Record := { id := [], seq := List.replicate 18 bA, qual := List.replicate 18 49 }

/-- Fixture: the statistics state right after the barcode chain of `recAC`
passed on `cfg1` (one read counted, one chain pass). -/
def stAC : Statistics := { Statistics.new 1 with passingReads := 1 }

/-- Fixture: a statistics state with three reads counted, one passing. -/
def stW : Statistics := { Statistics.new 1 with totalReads := 3, passingReads := 1 }

/-! ## Claim theorems -/

/-- C1: the claimed run invariant
`passing_reads + Σ num_filtered[i] + num_filtered_umi = total_reads` fails
on the code.  On the one-segment config `cfg1` with `offset = 0` and
`umi_len = 1`, the single read `AN` passes the barcode chain (so
`match_records` increments `passing_reads` BEFORE any UMI check) and is
then rejected by the UMI `N`-filter (incrementing `num_filtered_umi`),
giving `total = 1`, `passing = 1`, `filtered = [0]`, `filtered_umi = 1`
— the claimed sum is `2 ≠ 1`. -/
theorem C1_passing_double_count :
    (parse_records cfg1 0 1 [(recAN, recAN)]).map
        (fun r => (r.1.totalReads, r.1.passingReads, r.1.numFiltered, r.1.numFilteredUmi))
      = some (1, 1, [0], 1)
    ∧ 1 + ([0] : List ℕ).sum + 1 ≠ 1 := by
  constructor
  · decide
  · decide

/-- C3 counterexample: a configured UMI length of 17 is NOT rejected when
the run is built — `resolveUmiLen` simply forwards it (main.rs line 186,
and `from_yaml` copies `parameters.umi_len` with no bound check) — and
the first read passing the barcode chain and the UMI checks panics inside
the UMI encoder during streaming (`umi2u32` hits its explicit
length-over-16 panic, aborting `parse_records`). -/
theorem C3_no_build_rejection :
    resolveUmiLen cfg17 12 = 17
    ∧ umi2u32 (List.replicate 17 bA) = none
    ∧ parse_records cfg17 0 (resolveUmiLen cfg17 12) [(rec18, rec18)] = none := by
  refine ⟨by decide, by decide, by decide⟩

/-- C3 amended: a configured UMI length greater than 16 is not rejected at
build time; every UMI of length over 16 drives the encoder `umi2u32` — and
hence the per-construct histogram update that `construct_match` performs on
each passing read — into its runtime panic. -/
theorem C3_runtime_panic_amended (umi : List ℕ) (h : 16 < umi.length) :
    umi2u32 umi = none
    ∧ ∀ (m : List (List ℕ × List (ℕ × ℕ))) (idxs : List ℕ),
        barcodeUmiAdd m idxs umi = none := by
  have henc : umi2u32 umi = none := by rw [umi2u32, if_pos h]
  refine ⟨henc, ?_⟩
  intro m
  induction m with
  | nil => intro idxs; rw [barcodeUmiAdd, umiCounterAdd, henc]; rfl
  | cons km rest ih =>
    intro idxs
    obtain ⟨k, m0⟩ := km
    rw [barcodeUmiAdd]
    by_cases hk : k = idxs
    · rw [if_pos hk, umiCounterAdd, henc]; rfl
    · rw [if_neg hk, ih idxs]; rfl

/-- Witness for C3 amended at the concrete 17-base UMI `A…A`. -/
theorem C3_runtime_panic_amended_witness :
    umi2u32 (List.replicate 17 bA) = none :=
  (C3_runtime_panic_amended (List.replicate 17 bA) (by decide)).1

/-- C5: the per-position counts rows are NOT the claimed reverse lookup.
For the entry (position 0, whitelist index 1, count 5) on `cfgC5`
(segment 0 whitelist `A`,`C`; segment 1 whitelist `G`) the code emits the
barcode `G` — `Config::get_barcode` indexes the SEGMENT list with the
whitelist index and the whitelist with the position — whereas the claim
requires whitelist entry 1 of segment 0, the word `C`. -/
theorem C5_transposed_reverse_lookup :
    counterMapsRows cfgC5 [[(1, 5)], []] = [(0, [bG], 5)]
    ∧ claimedRowBarcode cfgC5 1 0 = some [bC]
    ∧ ([bG] : List ℕ) ≠ [bC] := by
  refine ⟨by decide, by decide, by decide⟩

/-- C7 counterexample: two enumeration orders of the SAME two-entry
barcodes map (the value lists are permutations of each other) produce
different runs: on the read `AC` the order `A`-then-`C` passes it while
the order `C`-then-`A` filters it at segment 0, so the decompressed
outputs and the statistics differ.  Segment order is the iteration order
of a `std::collections::HashMap`, which the input does not determine. -/
theorem C7_enumeration_order_matters :
    List.Perm [([[bA]] : List (List ℕ)), [[bC]]] [[[bC]], [[bA]]]
    ∧ parse_records (configOfEnumeration [[[bA]], [[bC]]] [[], []] none false) 0 0
          [(recAC, recAC)]
        ≠ parse_records (configOfEnumeration [[[bC]], [[bA]]] [[], []] none false) 0 0
          [(recAC, recAC)] := by
  refine ⟨by decide, by decide⟩

/-- C7 amended: two single-threaded runs are byte-identical PROVIDED the
map enumeration orders (and all other inputs) coincide: the streaming
pipeline is a pure function of the enumerated configuration, the CLI
parameters and the input reads. -/
theorem C7_deterministic_given_order (w1 w2 : List (List (List ℕ))) (s1 s2 : List (List ℕ))
    (u1 u2 : Option ℕ) (l1 l2 : Bool) (off1 off2 ulen1 ulen2 : ℕ)
    (p1 p2 : List (Record × Record))
    (hw : w1 = w2) (hs : s1 = s2) (hu : u1 = u2) (hl : l1 = l2)
    (hoff : off1 = off2) (hulen : ulen1 = ulen2) (hp : p1 = p2) :
    parse_records (configOfEnumeration w1 s1 u1 l1) off1 ulen1 p1
      = parse_records (configOfEnumeration w2 s2 u2 l2) off2 ulen2 p2 := by
  subst hw; subst hs; subst hu; subst hl; subst hoff; subst hulen; subst hp; rfl

/-- Witness for C7 amended at a concrete configuration and read list. -/
theorem C7_deterministic_given_order_witness :
    parse_records (configOfEnumeration [[[bA]]] [[]] none false) 0 0 [(recAC, recAC)]
      = parse_records (configOfEnumeration [[[bA]]] [[]] none false) 0 0 [(recAC, recAC)] :=
  C7_deterministic_given_order [[[bA]]] [[[bA]]] [[]] [[]] none none false false 0 0 0 0
    [(recAC, recAC)] [(recAC, recAC)] rfl rfl rfl rfl rfl rfl rfl

/-- C8 counterexample: `calculate_metrics` does NOT clamp the divisor.
On a zero-read run the code computes `0.0 / 0.0` — NaN, modelled `none` —
which is not the claimed value `passing / max(1, total) = 0`. -/
theorem C8_zero_total_nan :
    (calculate_metrics (Statistics.new 1)).fractionPassing = none
    ∧ (calculate_metrics (Statistics.new 1)).fractionPassing
        ≠ some (((Statistics.new 1).passingReads : ℚ)
            / max 1 ((Statistics.new 1).totalReads : ℚ)) := by
  refine ⟨rfl, by decide⟩

/-- C8 amended: finalization computes
`fraction_passing = passing / total` with no clamping (for a positive
total this coincides with the claimed `passing / max(1,total)`; for a
zero total the division is `0.0/0.0`, i.e. NaN, not 0) and
`whitelist_size = |whitelist|`. -/
theorem C8_metrics_amended (st : Statistics) (h : 0 < st.totalReads) :
    (calculate_metrics st).fractionPassing
        = some ((st.passingReads : ℚ) / max 1 (st.totalReads : ℚ))
    ∧ (calculate_metrics st).whitelistSize = st.whitelist.card := by
  constructor
  · unfold calculate_metrics
    dsimp only
    rw [if_neg (by omega)]
    have h1 : (1 : ℚ) ≤ (st.totalReads : ℚ) := by exact_mod_cast h
    rw [max_eq_right h1]
  · rfl

/-- Witness for C8 amended on a state with three total reads. -/
theorem C8_metrics_amended_witness :
    (calculate_metrics stW).fractionPassing
        = some ((stW.passingReads : ℚ) / max 1 (stW.totalReads : ℚ))
    ∧ (calculate_metrics stW).whitelistSize = stW.whitelist.card :=
  C8_metrics_amended stW (by decide)

/-- C10: `set_threads` splits a request of `n ≥ 2` threads as
`(n/2, n/2)` or `(n/2, n/2 + 1)` — the halves sum to `n`, differ by at
most one, and the odd remainder goes to the R2 writer; a request of 0
behaves as a request of the machine's core count; a request of 1 yields
`(1, 1)`, i.e. two writer threads in total. -/
theorem C10_set_threads (cores n : ℕ) (hc : 1 ≤ cores) (hn : 2 ≤ n) :
    (set_threads cores n).1 + (set_threads cores n).2 = n
    ∧ (set_threads cores n).2 - (set_threads cores n).1 ≤ 1
    ∧ (set_threads cores n).1 ≤ (set_threads cores n).2
    ∧ set_threads cores 0 = set_threads cores cores
    ∧ set_threads cores 1 = (1, 1) := by
  have hgo : set_threads cores n = setThreadsGo n := by
    rw [set_threads, if_neg (by omega)]
  have hv : setThreadsGo n = if n % 2 = 0 then (n / 2, n / 2) else (n / 2, n / 2 + 1) := by
    rw [setThreadsGo, if_neg (by omega)]
  have hmod := Nat.div_add_mod n 2
  refine ⟨?_, ?_, ?_, ?_, ?_⟩
  · rw [hgo, hv]; split_ifs with h <;> simp <;> omega
  · rw [hgo, hv]; split_ifs with h <;> simp
  · rw [hgo, hv]; split_ifs with h <;> simp
  · rw [set_threads, if_pos rfl, set_threads, if_neg (by omega)]
  · rfl

/-- Witness for C10 at one core and a request of three threads. -/
theorem C10_set_threads_witness :
    (set_threads 1 3).1 + (set_threads 1 3).2 = 3
    ∧ (set_threads 1 3).2 - (set_threads 1 3).1 ≤ 1
    ∧ (set_threads 1 3).1 ≤ (set_threads 1 3).2
    ∧ set_threads 1 0 = set_threads 1 1
    ∧ set_threads 1 1 = (1, 1) :=
  C10_set_threads 1 3 (by decide) (by decide)

/-- C2: in the driver's chain (`match_records` of parser.rs) the call at
segment `i` probes exactly the window start positions
`pos … pos + 2` of the read for `i > 0` (the hardcoded `Some(2)` default
tolerance) and `0 … offset` for `i = 0` (where `pos = 0`) — i.e. it
coincides with the specification's `match_in_range(seq, pos, pos + t)`
with `t = 2` resp. `t = offset`, the advanced position `pos + new_pos`
being the absolute end of the match; and a chain miss at segment `i`
increments `num_filtered[i]` and aborts the read with no other change. -/
theorem C2_chain_search_ranges (cfg : Config) (seq : List ℕ) (off0 i pos : ℕ)
    (bc : Barcodes) (hbc : cfg.barcodes.get? i = some bc) (hwf : bc.WF) :
    (chainStep cfg seq off0 i pos).map (fun rj => (pos + rj.1, rj.2))
        = matchInRange bc seq pos (pos + if i = 0 then off0 else 2)
    ∧ (∀ rem r j, chainStep cfg seq off0 i pos = some (r, j) →
        matchChainAux cfg seq off0 (rem + 1) i pos
          = (matchChainAux cfg seq off0 rem (i + 1) (pos + r)).map
              (fun pr => (pr.1, j :: pr.2)))
    ∧ (∀ (st : Statistics) (i0 : ℕ),
        matchChainAux cfg seq off0 cfg.barcodeCount 0 0 = Except.error i0 →
        match_records cfg off0 seq st
          = ({ st with numFiltered := bumpAt st.numFiltered i0 }, none)) := by
  refine ⟨?_, ?_, ?_⟩
  · unfold chainStep Config.match_subsequence
    rw [hbc]
    have hsome : (if i = 0 then some off0 else some 2) = some (if i = 0 then off0 else 2) :=
      (apply_ite some off0 2 (P := i = 0)).symm
    rw [hsome]
    dsimp only
    exact matchSub_eq_matchInRange bc hwf seq pos (if i = 0 then off0 else 2)
  · intro rem r j hstep
    rw [matchChainAux, hstep]
  · intro st i0 herr
    unfold match_records
    rw [herr]

/-- Witness for C2 at segment 1 of the two-segment fixture. -/
theorem C2_chain_search_ranges_witness :
    (chainStep cfg2 [bA, bC] 0 1 1).map (fun rj => (1 + rj.1, rj.2))
      = matchInRange segC [bA, bC] 1 (1 + if (1 : ℕ) = 0 then 0 else 2) :=
  (C2_chain_search_ranges cfg2 [bA, bC] 0 1 1 segC rfl (by decide)).1

/-- C4: whenever the barcode chain and the UMI checks both succeed, the
canonical construct `build_barcode(indices) ⧺ umi` is well-defined and no
longer than `pos2 = pos + u`, and `pos2` lies inside the quality string
(of the same length as the sequence) — so the quality-window slice
`qual[pos2 - L_c .. pos2)` taken by `construct_match` neither underflows
0 nor runs past the end; the claimed filtered_umi fallback is therefore
vacuous (no such read pair exists). -/
theorem C4_no_quality_underflow (cfg : Config) (offset umiLen : ℕ) (seq qual : List ℕ)
    (st st1 st2 : Statistics) (pos pos2 : ℕ) (idxs umi : List ℕ)
    (hq : qual.length = seq.length)
    (h1 : match_records cfg offset seq st = (st1, some (pos, idxs)))
    (h2 : match_umi seq pos umiLen st1 = (st2, some (pos2, umi))) :
    ∃ bcSeq, cfg.build_barcode idxs = some bcSeq
      ∧ (bcSeq ++ umi).length ≤ pos2 ∧ pos2 ≤ qual.length := by
  have hchain := match_records_ok h1
  obtain ⟨l, hbuild, hlen⟩ := chain_build cfg seq offset cfg.barcodeCount hchain
  obtain ⟨hp2, hul, hle⟩ := match_umi_some h2
  refine ⟨l, hbuild, ?_, ?_⟩
  · rw [List.length_append]; omega
  · omega

/-- Witness for C4 on the one-segment fixture and the clean read `AC`. -/
theorem C4_no_quality_underflow_witness :
    ∃ bcSeq, cfg1.build_barcode [0] = some bcSeq
      ∧ (bcSeq ++ [bC]).length ≤ 2 ∧ 2 ≤ recAC.qual.length :=
  C4_no_quality_underflow cfg1 0 1 recAC.seq recAC.qual (Statistics.new 1) stAC stAC 1 2
    [0] [bC] rfl (by decide) (by decide)

/-- C6 counterexample: `Config::match_subsequence(seq, 0, 1, None)` on the
word-`AA` segment and the read `CAA` returns `(2, 0)` — the match end
RELATIVE to `pos = 1` — while the specification's
`match_in_range(seq, 1, 1 + 0)` returns the absolute end `(3, 0)`; the
claimed equality fails. -/
theorem C6_end_convention_counterexample :
    Config.match_subsequence cfgAA [bC, bA, bA] 0 1 none = some (2, 0)
    ∧ matchInRange segAA [bC, bA, bA] 1 (1 + 0) = some (3, 0)
    ∧ Config.match_subsequence cfgAA [bC, bA, bA] 0 1 none
        ≠ matchInRange segAA [bC, bA, bA] 1 (1 + 0) := by
  refine ⟨by decide, by decide, by decide⟩

/-- C6 amended: `Config::match_subsequence(seq, i, pos, offset)` equals
`S_i.match_in_range(seq, pos, pos + (offset or 0))` up to the end
convention — shifting the returned end by `pos` recovers the
specification value exactly (same probed start positions `pos … pos +
(offset or 0)`, same matched window and whitelist index); in particular
`None`/0 probes only the exact position `pos`. -/
theorem C6_match_subsequence_amended (cfg : Config) (seq : List ℕ) (i pos : ℕ)
    (offset : Option ℕ) (bc : Barcodes)
    (hbc : cfg.barcodes.get? i = some bc) (hwf : bc.WF) :
    (cfg.match_subsequence seq i pos offset).map (fun rj => (pos + rj.1, rj.2))
      = matchInRange bc seq pos (pos + offset.getD 0) := by
  cases offset with
  | some off =>
    unfold Config.match_subsequence
    rw [hbc]
    dsimp only
    exact matchSub_eq_matchInRange bc hwf seq pos off
  | none =>
    unfold Config.match_subsequence
    rw [hbc]
    dsimp only
    have := matchSub_eq_matchInRange bc hwf seq pos 0
    simpa using this

/-- Witness for C6 amended on the word-`AA` segment and the read `CAA`. -/
theorem C6_match_subsequence_amended_witness :
    (Config.match_subsequence cfgAA [bC, bA, bA] 0 1 none).map (fun rj => (1 + rj.1, rj.2))
      = matchInRange segAA [bC, bA, bA] 1 (1 + Option.getD none 0) :=
  C6_match_subsequence_amended cfgAA [bC, bA, bA] 0 1 none segAA rfl (by decide)

/-- C9: for every UMI over A,C,G,T of length at most 16 the packed 32-bit
encoding succeeds with the base-4 value `umiEnc` (A=00, C=01, G=10, T=11,
first base most significant), decoding the packed integer at the known
length recovers the original bytes, and the encoding is injective on
fixed-length valid UMIs. -/
theorem C9_umi_roundtrip (umi : List ℕ) (hv : ∀ b ∈ umi, isACGT b = true)
    (hlen : umi.length ≤ 16) :
    umi2u32 umi = some (umiEnc umi)
    ∧ umiDecode umi.length (umiEnc umi) = umi
    ∧ ∀ umi2, (∀ b ∈ umi2, isACGT b = true) → umi2.length = umi.length →
        umi2u32 umi2 = umi2u32 umi → umi2 = umi := by
  refine ⟨umi2u32_eq_umiEnc hv hlen, umiDecode_umiEnc umi hv, ?_⟩
  intro umi2 hv2 hlen2 henc
  rw [umi2u32_eq_umiEnc hv hlen, umi2u32_eq_umiEnc hv2 (by omega)] at henc
  have heq : umiEnc umi2 = umiEnc umi := by
    injection henc
  calc umi2 = umiDecode umi2.length (umiEnc umi2) := (umiDecode_umiEnc umi2 hv2).symm
  _ = umiDecode umi.length (umiEnc umi) := by rw [hlen2, heq]
  _ = umi := umiDecode_umiEnc umi hv

/-- Witness for C9 on the four-base UMI `ACGT`. -/
theorem C9_umi_roundtrip_witness :
    umi2u32 [bA, bC, bG, bT] = some (umiEnc [bA, bC, bG, bT])
    ∧ umiDecode ([bA, bC, bG, bT] : List ℕ).length (umiEnc [bA, bC, bG, bT])
        = [bA, bC, bG, bT] :=
  ⟨(C9_umi_roundtrip [bA, bC, bG, bT] (by decide) (by decide)).1,
   (C9_umi_roundtrip [bA, bC, bG, bT] (by decide) (by decide)).2.1⟩

end Pipspeak
